import Mathlib

/-!
Verification development for the fastenv tool installer
(src/fastenv.py).  The core pipeline — download with retry, archive
extraction with progress accounting, directory-layout normalization,
persistent PATH registration and completion aggregation — is embedded
shallowly below; each definition mirrors the corresponding Python
function.
-/

namespace Fastenv

/-! ## File-system model

A directory tree: a regular file with a size in bytes, or a directory
with a list of named children.  This models the slice of the on-disk
state that InstallerApp.fix_directory_structure and
InstallerApp.move_contents inspect and mutate. -/

inductive Entry where
  | file (size : Nat)
  | dir (children : List (String × Entry))

mutual

def Entry.deq : (a b : Entry) → Decidable (a = b)
  | .file m, .file n =>
    match decEq m n with
    | isTrue h => isTrue (by rw [h])
    | isFalse h => isFalse (by intro hh; cases hh; exact h rfl)
  | .file _, .dir _ => isFalse (by intro h; cases h)
  | .dir _, .file _ => isFalse (by intro h; cases h)
  | .dir cs, .dir ds =>
    match Entry.deqChildren cs ds with
    | isTrue h => isTrue (by rw [h])
    | isFalse h => isFalse (by intro hh; cases hh; exact h rfl)

def Entry.deqChildren : (a b : List (String × Entry)) → Decidable (a = b)
  | [], [] => isTrue rfl
  | [], _ :: _ => isFalse (by intro h; cases h)
  | _ :: _, [] => isFalse (by intro h; cases h)
  | (n, e) :: as, (m, f) :: bs =>
    match decEq n m, Entry.deq e f, Entry.deqChildren as bs with
    | isTrue h1, isTrue h2, isTrue h3 => isTrue (by rw [h1, h2, h3])
    | isFalse h1, _, _ => isFalse (by intro hh; cases hh; exact h1 rfl)
    | _, isFalse h2, _ => isFalse (by intro hh; cases hh; exact h2 rfl)
    | _, _, isFalse h3 => isFalse (by intro hh; cases hh; exact h3 rfl)

end

instance : DecidableEq Entry := Entry.deq

/-- Name lookup among the immediate children of a directory
(the file system has at most one entry per name; lookup finds the
first). -/
def lookupName : List (String × Entry) → String → Option Entry
  | [], _ => none
  | (m, e) :: rest, n => if m = n then some e else lookupName rest n

/-- Path lookup, mirroring pathlib joining: an empty relative path
(Python `base / ""`) resolves to the base itself. -/
def Entry.lookup : Entry → List String → Option Entry
  | e, [] => some e
  | e, n :: rest =>
    match e with
    | .file _ => none
    | .dir cs =>
      match lookupName cs n with
      | some c => Entry.lookup c rest
      | none => none

/-- `p.is_dir()` on an entry. -/
def Entry.isDir : Entry → Bool
  | .file _ => false
  | .dir _ => true

/-- The children of a directory entry (a file has none). -/
def Entry.children : Entry → List (String × Entry)
  | .file _ => []
  | .dir cs => cs

/-- Test for `target.is_dir() and any(target.iterdir())` on an
optional lookup result: the path exists, is a directory, and is
non-empty. -/
def isNonemptyDir : Option Entry → Bool
  | some (.dir cs) => !cs.isEmpty
  | _ => false

/-- The immediate subdirectories, as in
`[d for d in base_dir.iterdir() if d.is_dir()]`. -/
def subdirsOf (cs : List (String × Entry)) : List (String × Entry) :=
  cs.filter (fun p => p.2.isDir)

/-- InstallerApp.move_contents (src/fastenv.py lines 540-548): for each
item of the source directory, an existing same-named destination entry
is deleted (rmtree / unlink) and the item is moved into the
destination. -/
def moveContents : List (String × Entry) → List (String × Entry) → List (String × Entry)
  | [], dst => dst
  | (n, e) :: rest, dst => moveContents rest (dst.filter (fun p => p.1 ≠ n) ++ [(n, e)])

/-- InstallerApp.fix_directory_structure (src/fastenv.py lines
517-538).  The Python function receives the base directory path,
mutates the layout under it, and returns the path; here the layout
(the base directory's children) is passed and returned explicitly, and
the returned path is the first component of the result.  The final
`shutil.rmtree(nested_dir)` is modelled as succeeding (the code logs
and continues when it fails, leaving the rest of the result
identical). -/
def fix_directory_structure (basePath : String) (cs : List (String × Entry))
    (binSubdir : List String) (is_single_exe : Bool) : String × List (String × Entry) :=
  if is_single_exe then (basePath, cs)
  else if isNonemptyDir ((Entry.dir cs).lookup binSubdir) then (basePath, cs)
  else
    match subdirsOf cs with
    | [(name, nested)] =>
      if is_single_exe || isNonemptyDir (nested.lookup binSubdir) then
        (basePath, (moveContents nested.children cs).filter (fun p => p.1 ≠ name))
      else (basePath, cs)
    | _ => (basePath, cs)

/-! ## Archive extraction model

InstallerApp.extract_file (src/fastenv.py lines 598-627): removes a
pre-existing target directory, recreates it, then extracts the archive
entries one by one, checking the shared cancellation flag
(`installation_completed`) before each entry.  Cancellation makes the
function `return None` — with no cleanup — while any raised exception
removes the target directory before re-raising. -/

inductive ExtractOutcome where
  | finished
  | cancelledNone
  | errorRaised
deriving DecidableEq

structure ExtractResult where
  outcome : ExtractOutcome
  dirOnDisk : Bool
  entriesExtracted : Nat
deriving DecidableEq

/-- The entry loop of extract_file.  `cancelled i` is the value of the
shared cancellation flag observed just before extracting entry `i`;
`fails i` says whether extracting entry `i` raises. -/
def extractGo : Nat → Nat → (Nat → Bool) → (Nat → Bool) → ExtractResult
  | 0, extracted, _, _ => ⟨.finished, true, extracted⟩
  | remaining + 1, extracted, cancelled, fails =>
    if cancelled extracted then ⟨.cancelledNone, true, extracted⟩
    else if fails extracted then ⟨.errorRaised, false, extracted⟩
    else extractGo remaining (extracted + 1) cancelled fails

/-- InstallerApp.extract_file on an archive of `totalEntries` entries:
the target directory is freshly created, then the entry loop runs. -/
def extract_file (totalEntries : Nat) (cancelled : Nat → Bool) (fails : Nat → Bool) :
    ExtractResult :=
  extractGo totalEntries 0 cancelled fails

/-! ## Download model

InstallerApp.download_file (src/fastenv.py lines 550-596): up to 3
attempts; connection/timeout failures sleep `2 ** attempt` seconds and
retry (except on the last attempt, which re-raises); HTTP-status
failures raise immediately; any other exception unlinks the partial
file and raises; observing the cancellation flag mid-stream unlinks
the file and returns False. -/

inductive AttemptOutcome where
  | success
  | connFailEarly
  | connFailMid
  | httpFail
  | otherFail
  | cancelledMid
deriving DecidableEq

inductive DownloadResult where
  | ok
  | errConn
  | errHttp
  | errOther
  | cancelledFalse
deriving DecidableEq

structure DownloadRun where
  result : DownloadResult
  fileOnDisk : Bool
  attemptsMade : Nat
  sleeps : List Nat
deriving DecidableEq

/-- The retry loop of download_file.  `outcomes i` is what the i-th
attempt (0-based) does: full success; a connection/timeout error
before any byte is written (`connFailEarly`) or after a partial write
(`connFailMid`); an HTTP-status error from raise_for_status
(`httpFail`, raised before the destination file is opened); any other
exception (`otherFail` — the handler unlinks the file if present); or
cancellation mid-stream (`cancelledMid` — the file is unlinked and
False returned).  `fileOnDisk` tracks whether a (partial or complete)
file exists at the destination; `sleeps` records each backoff sleep in
seconds. -/
def downloadGo (outcomes : Nat → AttemptOutcome) :
    Nat → Nat → Bool → List Nat → DownloadRun
  | 0, attempt, fileOnDisk, sleeps => ⟨.errConn, fileOnDisk, attempt, sleeps⟩
  | remaining + 1, attempt, fileOnDisk, sleeps =>
    match outcomes attempt with
    | .success => ⟨.ok, true, attempt + 1, sleeps⟩
    | .cancelledMid => ⟨.cancelledFalse, false, attempt + 1, sleeps⟩
    | .httpFail => ⟨.errHttp, fileOnDisk, attempt + 1, sleeps⟩
    | .otherFail => ⟨.errOther, false, attempt + 1, sleeps⟩
    | .connFailEarly =>
      if remaining = 0 then ⟨.errConn, fileOnDisk, attempt + 1, sleeps⟩
      else downloadGo outcomes remaining (attempt + 1) fileOnDisk (sleeps ++ [2 ^ attempt])
    | .connFailMid =>
      if remaining = 0 then ⟨.errConn, true, attempt + 1, sleeps⟩
      else downloadGo outcomes remaining (attempt + 1) true (sleeps ++ [2 ^ attempt])

/-- InstallerApp.download_file with max_retries = 3, starting with no
destination file on disk. -/
def download_file (outcomes : Nat → AttemptOutcome) : DownloadRun :=
  downloadGo outcomes 3 0 false []

/-! ## Overall-progress model

The values successively assigned to the per-tool overall progress bar
(`self.progress_bars[tool_name].set`) during a successful run: 0 at
start_installation (line 441), `(downloaded / total_size) * 33` after
every chunk (line 577), `33 + (extracted / total_files) * 33` after
every entry (line 618), and 100 at the end of add_to_system_path
(line 649).  fix_directory_structure reports no progress. -/

/-- Running byte totals after each chunk of the download loop. -/
def runningTotals : ℚ → List ℚ → List ℚ
  | _, [] => []
  | acc, c :: rest => (acc + c) :: runningTotals (acc + c) rest

/-- The overall-progress values emitted during the download loop. -/
def download_progress_values (total : ℚ) (chunks : List ℚ) : List ℚ :=
  (runningTotals 0 chunks).map (fun d => d / total * 33)

/-- The overall-progress values emitted during the extraction loop. -/
def extract_progress_values (totalFiles : Nat) : List ℚ :=
  (List.range totalFiles).map (fun i : Nat => 33 + (((i : ℚ) + 1) / (totalFiles : ℚ)) * 33)

/-- The full sequence of overall-progress values reported for one tool
across a successful run. -/
def overall_progress_values (total : ℚ) (chunks : List ℚ) (totalFiles : Nat) : List ℚ :=
  0 :: (download_progress_values total chunks ++ (extract_progress_values totalFiles ++ [100]))

/-! ## PATH registration model

InstallerApp.add_to_system_path (src/fastenv.py lines 629-653): the
directory to register is the tool directory itself for a
single-executable tool, otherwise `tool_dir / bin_subdir`; the
PowerShell command writes
GetEnvironmentVariable(PATH, User) + ";" + target back as the user
PATH, and a non-zero return code raises.  Paths are modelled as
already-resolved absolute strings (`Path.resolve` is the identity on
them). -/

def joinPath (a b : String) : String := if b = "" then a else a ++ "\\" ++ b

/-- The directory handed to the registrar. -/
def path_target (toolDir binSubdir : String) (is_single_exe : Bool) : String :=
  if is_single_exe then toolDir else joinPath toolDir binSubdir

/-- The read-modify-write performed by the PowerShell command. -/
def new_user_path (oldPath target : String) : String := oldPath ++ ";" ++ target

/-- InstallerApp.add_to_system_path: `oldPath` is the current
persistent user PATH value, `returncode` the PowerShell exit code. -/
def add_to_system_path (toolDir binSubdir : String) (is_single_exe : Bool)
    (oldPath : String) (returncode : Int) : Except String String :=
  if returncode ≠ 0 then Except.error "setPathFailed"
  else Except.ok (new_user_path oldPath (path_target toolDir binSubdir is_single_exe))

/-! ## Existing-file skip and per-stage progress bars

The interaction of scan_existing_files (lines 397-414),
start_installation's progress reset (lines 440-443) and install_tool's
existing-file branch (lines 482-488), for one tool, on a successful
run.  The UI-update queue is modelled as applied in program order. -/

structure ToolUIState where
  existingFile : Bool
  downloadStep : ℚ
  extractStep : ℚ
  configStep : ℚ
  overall : ℚ
  networkCalls : Nat
  extractRan : Bool
  normalizeRan : Bool
  registerRan : Bool

/-- scan_existing_files for one tool: when the archive file is on
disk, the tool is recorded in existing_files and its download step bar
is set to 100. -/
def scan_existing_files (fileOnDisk : Bool) (s : ToolUIState) : ToolUIState :=
  if fileOnDisk then { s with existingFile := true, downloadStep := 100 }
  else { s with existingFile := false }

/-- start_installation lines 440-443: every bar of every tool is reset
to 0 before the worker threads start. -/
def start_installation_reset (s : ToolUIState) : ToolUIState :=
  { s with overall := 0, downloadStep := 0, extractStep := 0, configStep := 0 }

/-- install_tool on a successful (non-cancelled) run: the download
stage runs only when the tool is not in existing_files; extraction,
normalization and registration always run. -/
def install_tool (s : ToolUIState) : ToolUIState :=
  let s1 := if s.existingFile then s
    else { s with networkCalls := s.networkCalls + 1, downloadStep := 100, overall := 33 }
  let s2 := { s1 with extractRan := true, extractStep := 100, overall := 66 }
  let s3 := { s2 with normalizeRan := true }
  { s3 with registerRan := true, configStep := 100, overall := 100 }

/-! ## Completion aggregation

InstallerApp.check_all_completed (src/fastenv.py lines 660-675): scans
`self.threads` and treats the run as done when no thread is alive;
when additionally the installation_completed flag is unset, the
aggregated completion notice is shown.  It is invoked at line 510,
i.e. from inside install_tool, on the very thread it is about to
test. -/

def check_all_completed (alive : List Bool) : Bool :=
  alive.all (fun a => !a)

/-- Whether the aggregated completion notice is surfaced by a call to
check_all_completed. -/
def completion_notice_shown (alive : List Bool) (installationCompleted : Bool) : Bool :=
  check_all_completed alive && !installationCompleted

/-- The first defined of two optional entries (lookup through an
overriding union). -/
def firstSome : Option Entry → Option Entry → Option Entry
  | some e, _ => some e
  | none, b => b

/-! ## Theorems -/

lemma lookupName_append (a b : List (String × Entry)) (n : String) :
    lookupName (a ++ b) n = firstSome (lookupName a n) (lookupName b n) := by
  induction a with
  | nil => simp [lookupName, firstSome]
  | cons p rest ih =>
    obtain ⟨m, e⟩ := p
    by_cases hm : m = n
    · simp [lookupName, hm, firstSome]
    · simp [lookupName, hm, ih]

lemma lookupName_filter (l : List (String × Entry)) (name n : String) :
    lookupName (l.filter (fun p => p.1 ≠ name)) n =
      if n = name then none else lookupName l n := by
  induction l with
  | nil => simp [lookupName]
  | cons p rest ih =>
    obtain ⟨m, e⟩ := p
    rw [List.filter_cons]
    by_cases h1 : m = name
    · rw [if_neg (by simp [h1])]
      rw [ih]
      by_cases h2 : n = name
      · simp [h2]
      · have hmn : ¬ m = n := by intro hh; exact h2 (hh ▸ h1)
        rw [if_neg h2, if_neg h2]
        simp only [lookupName, if_neg hmn]
    · rw [if_pos (by simp [h1])]
      simp only [lookupName]
      by_cases h2 : m = n
      · have hnn : ¬ n = name := fun hh => h1 (h2.trans hh)
        rw [if_pos h2, if_neg hnn, if_pos h2]
      · rw [if_neg h2, if_neg h2, ih]

lemma lookupName_none_of_not_mem (l : List (String × Entry)) (n : String)
    (h : n ∉ l.map Prod.fst) : lookupName l n = none := by
  induction l with
  | nil => rfl
  | cons p rest ih =>
    obtain ⟨m, e⟩ := p
    simp only [List.map_cons, List.mem_cons, not_or] at h
    simp only [lookupName, if_neg (Ne.symm h.1), ih h.2]

/-- Semantic description of move_contents: after the move, a name
resolves to the source's entry when the source has it, otherwise to
the destination's previous entry. -/
lemma moveContents_lookup (src : List (String × Entry))
    (hnodup : (src.map Prod.fst).Nodup) :
    ∀ (dst : List (String × Entry)) (n : String),
      lookupName (moveContents src dst) n =
        firstSome (lookupName src n) (lookupName dst n) := by
  induction src with
  | nil => intro dst n; simp [moveContents, lookupName, firstSome]
  | cons p rest ih =>
    obtain ⟨m, e⟩ := p
    intro dst n
    simp only [List.map_cons, List.nodup_cons] at hnodup
    have hrec := ih hnodup.2 (dst.filter (fun p => p.1 ≠ m) ++ [(m, e)]) n
    simp only [moveContents]
    rw [hrec, lookupName_append, lookupName_filter]
    by_cases hnm : n = m
    · subst hnm
      rw [lookupName_none_of_not_mem rest n hnodup.1]
      simp [lookupName, firstSome]
    · have h1 : lookupName ((m, e) :: rest) n = lookupName rest n := by
        simp only [lookupName, if_neg (Ne.symm hnm)]
      have h2 : lookupName [(m, e)] n = none := by
        simp only [lookupName, if_neg (Ne.symm hnm)]
      rw [h1, h2, if_neg hnm]
      cases lookupName dst n <;> cases lookupName rest n <;> simp [firstSome]

/-- The extraction loop never removes the target directory on the
cancellation path and always removes it on the error path, whatever
the archive size and the points where cancellation or failure
occur. -/
lemma extractGo_dir (remaining extracted : Nat) (c f : Nat → Bool) :
    ((extractGo remaining extracted c f).outcome = .cancelledNone →
      (extractGo remaining extracted c f).dirOnDisk = true) ∧
    ((extractGo remaining extracted c f).outcome = .errorRaised →
      (extractGo remaining extracted c f).dirOnDisk = false) := by
  induction remaining generalizing extracted with
  | zero => simp [extractGo]
  | succ n ih =>
    by_cases hc : c extracted
    · simp [extractGo, hc]
    · by_cases hf : f extracted
      · simp [extractGo, hc, hf]
      · simpa [extractGo, hc, hf] using ih (extracted + 1)

/-- Claim C1, counterexample: a 2-entry archive whose cancellation
flag becomes true just before entry 1 is extracted.  The outcome is
the cancellation return, yet the partially-created target directory is
still on disk, refuting the claimed cleanup. -/
theorem extract_cancel_counterexample :
    (extract_file 2 (fun i => decide (1 ≤ i)) (fun _ => false)).outcome =
        ExtractOutcome.cancelledNone ∧
    (extract_file 2 (fun i => decide (1 ≤ i)) (fun _ => false)).dirOnDisk = true := by
  decide

/-- Claim C1, amended: when the cancellation flag is observed before
an entry, extract_file returns the cancellation outcome (never the
error outcome) but leaves the partially-created target directory on
disk; only the error path removes the directory. -/
theorem extract_cancel_leaves_dir (totalEntries : Nat) (c f : Nat → Bool) :
    ((extract_file totalEntries c f).outcome = .cancelledNone →
      (extract_file totalEntries c f).dirOnDisk = true) ∧
    ((extract_file totalEntries c f).outcome = .errorRaised →
      (extract_file totalEntries c f).dirOnDisk = false) :=
  extractGo_dir totalEntries 0 c f

/-- Witness for extract_cancel_leaves_dir at a concrete cancelled
run. -/
theorem extract_cancel_leaves_dir_witness :
    (extract_file 3 (fun i => decide (2 ≤ i)) (fun _ => false)).dirOnDisk = true :=
  (extract_cancel_leaves_dir 3 (fun i => decide (2 ≤ i)) (fun _ => false)).1 (by decide)

/-- A run of the download loop that surfaces the generic-failure error
has always unlinked the destination file first. -/
lemma downloadGo_errOther_noFile (o : Nat → AttemptOutcome) :
    ∀ fuel attempt fileOnDisk sleeps,
      (downloadGo o fuel attempt fileOnDisk sleeps).result = .errOther →
      (downloadGo o fuel attempt fileOnDisk sleeps).fileOnDisk = false := by
  intro fuel
  induction fuel with
  | zero => intro attempt fd s h; simp [downloadGo] at h
  | succ n ih =>
    intro attempt fd s h
    by_cases hn : n = 0
    · cases ho : o attempt <;> simp [downloadGo, ho, hn] at h ⊢
    · cases ho : o attempt <;> simp [downloadGo, ho, hn] at h ⊢
      · exact ih _ _ _ h
      · exact ih _ _ _ h

/-- Claim C2, counterexample: three consecutive connection/timeout
failures, each after a partial write.  The error is surfaced but the
partial destination file is still on disk, refuting the claimed
cleanup on the retry-exhaustion path. -/
theorem download_retry_exhaustion_counterexample :
    (download_file (fun _ => .connFailMid)).result = DownloadResult.errConn ∧
    (download_file (fun _ => .connFailMid)).fileOnDisk = true := by
  decide

/-- Claim C2, amended: when all 3 attempts fail with connection or
timeout errors after partial writes, download_file surfaces the
transfer error but leaves the partial destination file on disk (with
the two backoff sleeps of 1s and 2s having been taken); only the
generic-failure path deletes the partial file before surfacing its
error. -/
theorem download_retry_exhaustion_partial_file (outcomes : Nat → AttemptOutcome) :
    ((∀ i, i < 3 → outcomes i = .connFailMid) →
      download_file outcomes = ⟨.errConn, true, 3, [1, 2]⟩) ∧
    ((download_file outcomes).result = .errOther →
      (download_file outcomes).fileOnDisk = false) := by
  constructor
  · intro h
    have h0 := h 0 (by omega)
    have h1 := h 1 (by omega)
    have h2 := h 2 (by omega)
    simp [download_file, downloadGo, h0, h1, h2]
  · exact downloadGo_errOther_noFile outcomes 3 0 false []

/-- Witness for download_retry_exhaustion_partial_file at the
all-timeouts run. -/
theorem download_retry_exhaustion_partial_file_witness :
    download_file (fun _ => .connFailMid) = ⟨.errConn, true, 3, [1, 2]⟩ :=
  (download_retry_exhaustion_partial_file (fun _ => .connFailMid)).1 (fun _ _ => rfl)

/-- The initial UI state of a tool before any scan. -/
def toolUI0 : ToolUIState :=
  ⟨false, 0, 0, 0, 0, 0, false, false, false⟩

/-- Claim C3, counterexample: a tool whose archive is found on disk at
scan time.  During the subsequent run no network call happens and the
later stages execute, but the download-stage progress is 0, not
complete: start_installation reset it and the run never re-marks
it. -/
theorem existing_file_progress_counterexample :
    (install_tool (start_installation_reset (scan_existing_files true toolUI0))).networkCalls
        = 0 ∧
    (install_tool (start_installation_reset (scan_existing_files true toolUI0))).extractRan
        = true ∧
    ¬ (install_tool (start_installation_reset (scan_existing_files true toolUI0))).downloadStep
        = 100 := by
  refine ⟨rfl, rfl, ?_⟩
  simp [install_tool, start_installation_reset, scan_existing_files, toolUI0]

/-- Claim C3, amended: for a tool whose archive file is found at scan
time, the download-step bar is set to complete at scan time and the
tool is recorded as existing; when installation starts the bar is
reset to 0; the run then performs no network call, still executes
extraction, normalization and registration, and leaves the
download-step bar at 0 (it is never re-marked complete). -/
theorem existing_file_skip_and_reset (s : ToolUIState) :
    (scan_existing_files true s).downloadStep = 100 ∧
    (scan_existing_files true s).existingFile = true ∧
    (start_installation_reset (scan_existing_files true s)).downloadStep = 0 ∧
    (install_tool (start_installation_reset (scan_existing_files true s))).networkCalls
        = s.networkCalls ∧
    (install_tool (start_installation_reset (scan_existing_files true s))).extractRan = true ∧
    (install_tool (start_installation_reset (scan_existing_files true s))).normalizeRan
        = true ∧
    (install_tool (start_installation_reset (scan_existing_files true s))).registerRan
        = true ∧
    (install_tool (start_installation_reset (scan_existing_files true s))).downloadStep
        = 0 := by
  simp [scan_existing_files, start_installation_reset, install_tool]

/-- Claim C7: the registrar receives installRoot/bin for a
two-level tool and the install root itself for a single-executable
tool; on a successful write the new persistent value is exactly the
old value, the separator, and the target (so existing entries are
never removed or deduplicated); a rejected write surfaces the
registration error. -/
theorem add_to_system_path_spec (toolDir binSubdir oldPath : String) (rc : Int) :
    path_target toolDir "bin" false = toolDir ++ "\\" ++ "bin" ∧
    path_target toolDir binSubdir true = toolDir ∧
    (rc = 0 → add_to_system_path toolDir binSubdir false oldPath rc =
        Except.ok (oldPath ++ ";" ++ joinPath toolDir binSubdir)) ∧
    (rc ≠ 0 → add_to_system_path toolDir binSubdir false oldPath rc =
        Except.error "setPathFailed") := by
  refine ⟨?_, ?_, ?_, ?_⟩
  · simp [path_target, joinPath]
  · simp [path_target]
  · intro h
    simp [add_to_system_path, h, new_user_path, path_target]
  · intro h
    simp [add_to_system_path, h]

/-- Witness for add_to_system_path_spec on a successful write. -/
theorem add_to_system_path_spec_witness :
    add_to_system_path "C:\\tools\\cmake" "bin" false "OLD" 0 =
      Except.ok ("OLD" ++ ";" ++ joinPath "C:\\tools\\cmake" "bin") :=
  (add_to_system_path_spec "C:\\tools\\cmake" "bin" "OLD" 0).2.2.1 rfl

/-- Claim C9: check_all_completed is invoked from inside install_tool,
on a thread that is still alive, so whenever the aliveness list it
scans contains a live thread — in particular the caller's own — the
all-done signal is false and the aggregated completion notice is not
surfaced, even though every job has reached a terminal state. -/
theorem check_all_completed_self_alive (alive : List Bool) (i : Nat)
    (h : i < alive.length) (hi : alive.get ⟨i, h⟩ = true) :
    check_all_completed alive = false ∧
    ∀ installationCompleted,
      completion_notice_shown alive installationCompleted = false := by
  have hmem : (true : Bool) ∈ alive := by
    rw [← hi]; exact alive.get_mem i h
  have hne : ¬ (alive.all (fun a => !a) = true) := by
    intro hall
    have := List.all_eq_true.mp hall true hmem
    simp at this
  have hfalse : check_all_completed alive = false := by
    rw [check_all_completed]
    cases hv : alive.all (fun a => !a) with
    | false => rfl
    | true => exact absurd hv hne
  refine ⟨hfalse, ?_⟩
  intro ic
  simp [completion_notice_shown, hfalse]

/-- Witness for check_all_completed_self_alive: the last tool just
reached its terminal state and runs the check on its own still-alive
thread (index 1); the signal stays false. -/
theorem check_all_completed_self_alive_witness :
    check_all_completed [false, true] = false :=
  (check_all_completed_self_alive [false, true] 1 (by decide) (by decide)).1

/-- Claim C10: with singleExecutable false and an empty binSubdir, the
joined path base/binSubdir is the base directory itself, so a
non-empty base directory passes the already-correctly-laid-out check
and the layout is returned unchanged — no nested subdirectory is ever
collapsed. -/
theorem fix_empty_binsubdir_unchanged (basePath : String)
    (cs : List (String × Entry)) (h : cs ≠ []) :
    fix_directory_structure basePath cs [] false = (basePath, cs) := by
  obtain ⟨x, xs, rfl⟩ := List.exists_cons_of_ne_nil h
  simp [fix_directory_structure, Entry.lookup, isNonemptyDir]

/-- Witness for fix_empty_binsubdir_unchanged: a base directory
holding one nested directory that itself has a bin subdirectory is
still left unchanged when binSubdir is empty. -/
theorem fix_empty_binsubdir_unchanged_witness :
    fix_directory_structure "root"
        [("wrap", Entry.dir [("bin", Entry.dir [("t", Entry.file 1)])])] [] false =
      ("root", [("wrap", Entry.dir [("bin", Entry.dir [("t", Entry.file 1)])])]) :=
  fix_empty_binsubdir_unchanged "root" _ (by decide)

/-- A base layout whose binSubdir exists as a non-empty regular file
next to a single wrapping subdirectory. -/
def base0 : List (String × Entry) :=
  [("bin", Entry.file 5),
   ("wrap", Entry.dir [("bin", Entry.dir [("t", Entry.file 1)])])]

/-- Claim C4, counterexample: when baseDir/binSubdir exists as a
non-empty regular file — neither absent nor an empty directory — the
code still collapses the single wrapping subdirectory, so the layout
changes outside the claimed one situation. -/
theorem fix_nonempty_file_counterexample :
    (Entry.dir base0).lookup ["bin"] = some (Entry.file 5) ∧
    (fix_directory_structure "root" base0 ["bin"] false).2 ≠ base0 := by
  decide

/-- Claim C4, amended: fix_directory_structure always returns the base
path; the layout is left unchanged when singleExecutable holds, when
baseDir/binSubdir is a non-empty directory, when the number of
immediate subdirectories differs from 1, and when the unique
subdirectory's own binSubdir is not a non-empty directory; it is
changed exactly in the remaining situation — singleExecutable false,
baseDir/binSubdir not a non-empty directory (absent, a regular file,
or an empty directory), exactly one immediate subdirectory whose own
binSubdir is a non-empty directory — where, provided the subdirectory
is well-formed (distinct child names, none equal to the
subdirectory's own name — otherwise move_contents deletes its own
source mid-iteration and the move raises, failing the job), the
subdirectory's contents are moved up (clobbering same-named base
entries) and the emptied subdirectory is removed. -/
theorem fix_directory_structure_characterization (basePath : String)
    (cs : List (String × Entry)) (bin : List String) (single : Bool) :
    (fix_directory_structure basePath cs bin single).1 = basePath ∧
    (single = true → (fix_directory_structure basePath cs bin single).2 = cs) ∧
    (isNonemptyDir ((Entry.dir cs).lookup bin) = true →
      (fix_directory_structure basePath cs bin single).2 = cs) ∧
    ((subdirsOf cs).length ≠ 1 →
      (fix_directory_structure basePath cs bin single).2 = cs) ∧
    (∀ name nested, subdirsOf cs = [(name, nested)] → single = false →
      isNonemptyDir (nested.lookup bin) = false →
      (fix_directory_structure basePath cs bin single).2 = cs) ∧
    (∀ name nested, subdirsOf cs = [(name, nested)] → single = false →
      isNonemptyDir ((Entry.dir cs).lookup bin) = false →
      isNonemptyDir (nested.lookup bin) = true →
      (nested.children.map Prod.fst).Nodup →
      lookupName nested.children name = none →
      (fix_directory_structure basePath cs bin single).2 =
        (moveContents nested.children cs).filter (fun p => p.1 ≠ name)) := by
  refine ⟨?_, ?_, ?_, ?_, ?_, ?_⟩
  · unfold fix_directory_structure
    repeat' split
    all_goals rfl
  · intro h
    subst h
    simp [fix_directory_structure]
  · intro h
    simp [fix_directory_structure, h]
  · intro h
    rcases hs : subdirsOf cs with _ | ⟨⟨n1, e1⟩, rest⟩
    · simp [fix_directory_structure, hs]
    · rcases rest with _ | ⟨q, t⟩
      · exact absurd (by rw [hs]; rfl) h
      · simp [fix_directory_structure, hs]
  · intro name nested hs hsingle hn
    subst hsingle
    simp [fix_directory_structure, hs, hn]
  · intro name nested hs hsingle hb hn _ _
    subst hsingle
    simp [fix_directory_structure, hs, hb, hn]

/-- Witness for fix_directory_structure_characterization: the CMake
layout, a single wrapping directory with a non-empty bin, is
collapsed. -/
theorem fix_directory_structure_characterization_witness :
    (fix_directory_structure "root"
        [("wrap", Entry.dir [("bin", Entry.dir [("n", Entry.file 2)])])] ["bin"] false).2 =
      (moveContents (Entry.dir [("bin", Entry.dir [("n", Entry.file 2)])]).children
          [("wrap", Entry.dir [("bin", Entry.dir [("n", Entry.file 2)])])]).filter
        (fun p => p.1 ≠ "wrap") :=
  (fix_directory_structure_characterization "root"
      [("wrap", Entry.dir [("bin", Entry.dir [("n", Entry.file 2)])])] ["bin"]
      false).2.2.2.2.2 "wrap" (Entry.dir [("bin", Entry.dir [("n", Entry.file 2)])])
    (by decide) rfl (by decide) (by decide) (by decide) (by decide)

/-- A base layout whose own binSubdir is already a non-empty directory
while also having exactly one subdirectory with a non-empty nested
binSubdir. -/
def base8 : List (String × Entry) :=
  [("bin", Entry.dir [("bin", Entry.dir [("f", Entry.file 1)])])]

/-- Claim C8, counterexample: this base has exactly one immediate
subdirectory and that subdirectory's own binSubdir is a non-empty
directory, yet normalization leaves the layout unchanged (the base's
own binSubdir is already non-empty), so the result is not the
subdirectory's contents moved to the root. -/
theorem fix_collapse_counterexample :
    subdirsOf base8 = [("bin", Entry.dir [("bin", Entry.dir [("f", Entry.file 1)])])] ∧
    isNonemptyDir
        ((Entry.dir [("bin", Entry.dir [("f", Entry.file 1)])]).lookup ["bin"]) = true ∧
    (fix_directory_structure "" base8 ["bin"] false).2 = base8 ∧
    base8 ≠ [("bin", Entry.dir [("f", Entry.file 1)])] := by
  decide

/-- Claim C8, amended: for a base whose own binSubdir is not already a
non-empty directory and that contains exactly one subdirectory whose
own binSubdir is a non-empty directory (the subdirectory well-formed:
distinct child names, none equal to the subdirectory's own name),
normalization moves that subdirectory's contents to the root — a name
then resolves to the subdirectory's entry if it had one, else to the
base's previous entry, and the removed subdirectory's name to
nothing — and running normalization a second time leaves the layout
unchanged. -/
theorem fix_collapse_idempotent
    (cs : List (String × Entry)) (name : String) (nested : Entry) (bin : List String)
    (hsub : subdirsOf cs = [(name, nested)])
    (hbase : isNonemptyDir ((Entry.dir cs).lookup bin) = false)
    (hnested : isNonemptyDir (nested.lookup bin) = true)
    (hnodup : (nested.children.map Prod.fst).Nodup)
    (hname : lookupName nested.children name = none) :
    (fix_directory_structure "" cs bin false).2 =
      (moveContents nested.children cs).filter (fun p => p.1 ≠ name) ∧
    (∀ n, lookupName ((fix_directory_structure "" cs bin false).2) n =
      if n = name then none
      else firstSome (lookupName nested.children n) (lookupName cs n)) ∧
    (fix_directory_structure "" ((fix_directory_structure "" cs bin false).2) bin false).2 =
      (fix_directory_structure "" cs bin false).2 := by
  have hfix : (fix_directory_structure "" cs bin false).2 =
      (moveContents nested.children cs).filter (fun p => p.1 ≠ name) := by
    simp [fix_directory_structure, hbase, hsub, hnested]
  have hchar : ∀ n, lookupName ((fix_directory_structure "" cs bin false).2) n =
      if n = name then none
      else firstSome (lookupName nested.children n) (lookupName cs n) := by
    intro n
    rw [hfix, lookupName_filter, moveContents_lookup nested.children hnodup cs n]
  obtain ⟨b, rest, rfl⟩ : ∃ b rest, bin = b :: rest := by
    cases bin with
    | nil =>
      exfalso
      cases cs with
      | nil => simp [subdirsOf] at hsub
      | cons p t => simp [Entry.lookup, isNonemptyDir] at hbase
    | cons b rest => exact ⟨b, rest, rfl⟩
  obtain ⟨ns, rfl⟩ : ∃ ns, nested = Entry.dir ns := by
    cases nested with
    | file sz => simp [Entry.lookup, isNonemptyDir] at hnested
    | dir ns => exact ⟨ns, rfl⟩
  obtain ⟨c, hc⟩ : ∃ c, lookupName ns b = some c := by
    cases h : lookupName ns b with
    | none => simp [Entry.lookup, h, isNonemptyDir] at hnested
    | some c => exact ⟨c, rfl⟩
  have hcrest : isNonemptyDir (c.lookup rest) = true := by
    simpa [Entry.lookup, hc] using hnested
  have hbne : ¬ b = name := by
    intro hh
    rw [hh] at hc
    rw [show (Entry.dir ns).children = ns from rfl] at hname
    rw [hname] at hc
    cases hc
  have hlook : lookupName ((fix_directory_structure "" cs (b :: rest) false).2) b = some c := by
    rw [hchar b, if_neg hbne]
    simp [Entry.children, hc, firstSome]
  have hcond : isNonemptyDir
      ((Entry.dir ((fix_directory_structure "" cs (b :: rest) false).2)).lookup
        (b :: rest)) = true := by
    simp [Entry.lookup, hlook, hcrest]
  have hstop : ∀ r1 : List (String × Entry),
      isNonemptyDir ((Entry.dir r1).lookup (b :: rest)) = true →
      (fix_directory_structure "" r1 (b :: rest) false).2 = r1 := by
    intro r1 h
    simp [fix_directory_structure, h]
  exact ⟨hfix, hchar, hstop _ hcond⟩

/-- Witness for fix_collapse_idempotent: a concrete wrapped layout is
collapsed once, and a second normalization leaves it unchanged. -/
theorem fix_collapse_idempotent_witness :
    (fix_directory_structure ""
        ((fix_directory_structure ""
            [("cmake401", Entry.dir [("bin", Entry.dir [("cmake", Entry.file 9)])])]
            ["bin"] false).2) ["bin"] false).2 =
      (fix_directory_structure ""
          [("cmake401", Entry.dir [("bin", Entry.dir [("cmake", Entry.file 9)])])]
          ["bin"] false).2 :=
  (fix_collapse_idempotent
      [("cmake401", Entry.dir [("bin", Entry.dir [("cmake", Entry.file 9)])])]
      "cmake401" (Entry.dir [("bin", Entry.dir [("cmake", Entry.file 9)])]) ["bin"]
      (by decide) (by decide) (by decide) (by decide) (by decide)).2.2

lemma downloadGo_attempts_le (o : Nat → AttemptOutcome) :
    ∀ fuel attempt f s, (downloadGo o fuel attempt f s).attemptsMade ≤ attempt + fuel := by
  intro fuel
  induction fuel with
  | zero => intro attempt f s; simp [downloadGo]
  | succ n ih =>
    intro attempt f s
    cases ho : o attempt with
    | success => simp [downloadGo, ho]
    | cancelledMid => simp [downloadGo, ho]
    | httpFail => simp [downloadGo, ho]
    | otherFail => simp [downloadGo, ho]
    | connFailEarly =>
      by_cases hn : n = 0
      · simp [downloadGo, ho, hn]
      · simp only [downloadGo, ho, if_neg hn]
        have := ih (attempt + 1) f (s ++ [2 ^ attempt])
        omega
    | connFailMid =>
      by_cases hn : n = 0
      · simp [downloadGo, ho, hn]
      · simp only [downloadGo, ho, if_neg hn]
        have := ih (attempt + 1) true (s ++ [2 ^ attempt])
        omega

lemma downloadGo_attempts_ge (o : Nat → AttemptOutcome) :
    ∀ fuel attempt f s, attempt ≤ (downloadGo o fuel attempt f s).attemptsMade := by
  intro fuel
  induction fuel with
  | zero => intro attempt f s; simp [downloadGo]
  | succ n ih =>
    intro attempt f s
    cases ho : o attempt with
    | success => simp [downloadGo, ho]
    | cancelledMid => simp [downloadGo, ho]
    | httpFail => simp [downloadGo, ho]
    | otherFail => simp [downloadGo, ho]
    | connFailEarly =>
      by_cases hn : n = 0
      · simp [downloadGo, ho, hn]
      · simp only [downloadGo, ho, if_neg hn]
        have := ih (attempt + 1) f (s ++ [2 ^ attempt])
        omega
    | connFailMid =>
      by_cases hn : n = 0
      · simp [downloadGo, ho, hn]
      · simp only [downloadGo, ho, if_neg hn]
        have := ih (attempt + 1) true (s ++ [2 ^ attempt])
        omega

lemma downloadGo_attempts_ge_one (o : Nat → AttemptOutcome) (n attempt : Nat)
    (f : Bool) (s : List Nat) :
    attempt + 1 ≤ (downloadGo o (n + 1) attempt f s).attemptsMade := by
  cases ho : o attempt with
  | success => simp [downloadGo, ho]
  | cancelledMid => simp [downloadGo, ho]
  | httpFail => simp [downloadGo, ho]
  | otherFail => simp [downloadGo, ho]
  | connFailEarly =>
    by_cases hn : n = 0
    · simp [downloadGo, ho, hn]
    · simp only [downloadGo, ho, if_neg hn]
      exact downloadGo_attempts_ge o n (attempt + 1) f (s ++ [2 ^ attempt])
  | connFailMid =>
    by_cases hn : n = 0
    · simp [downloadGo, ho, hn]
    · simp only [downloadGo, ho, if_neg hn]
      exact downloadGo_attempts_ge o n (attempt + 1) true (s ++ [2 ^ attempt])

lemma downloadGo_sleeps (o : Nat → AttemptOutcome) :
    ∀ fuel attempt f s, (downloadGo o fuel attempt f s).sleeps =
      s ++ (List.range' attempt
        ((downloadGo o fuel attempt f s).attemptsMade - 1 - attempt)).map (fun k => 2 ^ k) := by
  intro fuel
  induction fuel with
  | zero => intro attempt f s; simp [downloadGo]
  | succ n ih =>
    intro attempt f s
    cases ho : o attempt with
    | success => simp [downloadGo, ho]
    | cancelledMid => simp [downloadGo, ho]
    | httpFail => simp [downloadGo, ho]
    | otherFail => simp [downloadGo, ho]
    | connFailEarly =>
      by_cases hn : n = 0
      · simp [downloadGo, ho, hn]
      · simp only [downloadGo, ho, if_neg hn]
        obtain ⟨m, hm⟩ : ∃ m, n = m + 1 := ⟨n - 1, by omega⟩
        have hge : attempt + 1 + 1 ≤
            (downloadGo o n (attempt + 1) f (s ++ [2 ^ attempt])).attemptsMade := by
          rw [hm]; exact downloadGo_attempts_ge_one o m (attempt + 1) f (s ++ [2 ^ attempt])
        rw [ih (attempt + 1) f (s ++ [2 ^ attempt])]
        have hk : (downloadGo o n (attempt + 1) f (s ++ [2 ^ attempt])).attemptsMade - 1 - attempt
            = ((downloadGo o n (attempt + 1) f (s ++ [2 ^ attempt])).attemptsMade - 1 -
                (attempt + 1)) + 1 := by omega
        rw [hk, List.range'_succ, List.map_cons]
        simp
    | connFailMid =>
      by_cases hn : n = 0
      · simp [downloadGo, ho, hn]
      · simp only [downloadGo, ho, if_neg hn]
        obtain ⟨m, hm⟩ : ∃ m, n = m + 1 := ⟨n - 1, by omega⟩
        have hge : attempt + 1 + 1 ≤
            (downloadGo o n (attempt + 1) true (s ++ [2 ^ attempt])).attemptsMade := by
          rw [hm]; exact downloadGo_attempts_ge_one o m (attempt + 1) true (s ++ [2 ^ attempt])
        rw [ih (attempt + 1) true (s ++ [2 ^ attempt])]
        have hk : (downloadGo o n (attempt + 1) true (s ++ [2 ^ attempt])).attemptsMade - 1 -
            attempt = ((downloadGo o n (attempt + 1) true (s ++ [2 ^ attempt])).attemptsMade -
                1 - (attempt + 1)) + 1 := by omega
        rw [hk, List.range'_succ, List.map_cons]
        simp

lemma downloadGo_mid_conn (o : Nat → AttemptOutcome) :
    ∀ fuel attempt f s i, attempt ≤ i →
      i + 1 < (downloadGo o fuel attempt f s).attemptsMade →
      o i = .connFailEarly ∨ o i = .connFailMid := by
  intro fuel
  induction fuel with
  | zero =>
    intro attempt f s i hle hlt
    exfalso
    simp [downloadGo] at hlt
    omega
  | succ n ih =>
    intro attempt f s i hle hlt
    cases ho : o attempt with
    | success => exfalso; simp [downloadGo, ho] at hlt; omega
    | cancelledMid => exfalso; simp [downloadGo, ho] at hlt; omega
    | httpFail => exfalso; simp [downloadGo, ho] at hlt; omega
    | otherFail => exfalso; simp [downloadGo, ho] at hlt; omega
    | connFailEarly =>
      by_cases hn : n = 0
      · exfalso; simp [downloadGo, ho, hn] at hlt; omega
      · by_cases hi : i = attempt
        · subst hi; exact Or.inl ho
        · simp only [downloadGo, ho, if_neg hn] at hlt
          exact ih (attempt + 1) f (s ++ [2 ^ attempt]) i (by omega) hlt
    | connFailMid =>
      by_cases hn : n = 0
      · exfalso; simp [downloadGo, ho, hn] at hlt; omega
      · by_cases hi : i = attempt
        · subst hi; exact Or.inr ho
        · simp only [downloadGo, ho, if_neg hn] at hlt
          exact ih (attempt + 1) true (s ++ [2 ^ attempt]) i (by omega) hlt

lemma downloadGo_http (o : Nat → AttemptOutcome) :
    ∀ fuel attempt f s i, attempt ≤ i →
      i < (downloadGo o fuel attempt f s).attemptsMade → o i = .httpFail →
      (downloadGo o fuel attempt f s).attemptsMade = i + 1 ∧
        (downloadGo o fuel attempt f s).result = .errHttp := by
  intro fuel
  induction fuel with
  | zero =>
    intro attempt f s i hle hlt hhttp
    exfalso
    simp [downloadGo] at hlt
    omega
  | succ n ih =>
    intro attempt f s i hle hlt hhttp
    by_cases hi : i = attempt
    · subst hi
      simp [downloadGo, hhttp]
    · have hle2 : attempt + 1 ≤ i := by omega
      cases ho : o attempt with
      | success => exfalso; simp [downloadGo, ho] at hlt; omega
      | cancelledMid => exfalso; simp [downloadGo, ho] at hlt; omega
      | httpFail => exfalso; simp [downloadGo, ho] at hlt; omega
      | otherFail => exfalso; simp [downloadGo, ho] at hlt; omega
      | connFailEarly =>
        by_cases hn : n = 0
        · exfalso; simp [downloadGo, ho, hn] at hlt; omega
        · simp only [downloadGo, ho, if_neg hn] at hlt ⊢
          exact ih (attempt + 1) f (s ++ [2 ^ attempt]) i hle2 hlt hhttp
      | connFailMid =>
        by_cases hn : n = 0
        · exfalso; simp [downloadGo, ho, hn] at hlt; omega
        · simp only [downloadGo, ho, if_neg hn] at hlt ⊢
          exact ih (attempt + 1) true (s ++ [2 ^ attempt]) i hle2 hlt hhttp

/-- Claim C5: download_file makes at most 3 attempts; its backoff
sleeps are exactly 2^0, 2^1, ... seconds (1s after the first failed
attempt, 2s after the second), one per retry; every attempt that was
retried had failed with a connection/timeout error; and a reached
HTTP-status failure ends the run at that very attempt with the
transfer error, never retried. -/
theorem download_retry_policy (outcomes : Nat → AttemptOutcome) :
    (download_file outcomes).attemptsMade ≤ 3 ∧
    (download_file outcomes).sleeps =
      (List.range ((download_file outcomes).attemptsMade - 1)).map (fun k => 2 ^ k) ∧
    (∀ i, i + 1 < (download_file outcomes).attemptsMade →
      outcomes i = .connFailEarly ∨ outcomes i = .connFailMid) ∧
    (∀ i, i < (download_file outcomes).attemptsMade → outcomes i = .httpFail →
      (download_file outcomes).attemptsMade = i + 1 ∧
        (download_file outcomes).result = .errHttp) := by
  refine ⟨?_, ?_, ?_, ?_⟩
  · simpa using downloadGo_attempts_le outcomes 3 0 false []
  · have h := downloadGo_sleeps outcomes 3 0 false []
    simpa [List.range_eq_range'] using h
  · intro i hi
    exact downloadGo_mid_conn outcomes 3 0 false [] i (Nat.zero_le i) hi
  · intro i hi hh
    exact downloadGo_http outcomes 3 0 false [] i (Nat.zero_le i) hi hh

/-- Witness for download_retry_policy: a timeout on the first attempt
followed by an HTTP-status failure on the second ends the run at
attempt 2 with the HTTP error. -/
theorem download_retry_policy_witness :
    (download_file (fun i => if i = 0 then AttemptOutcome.connFailMid
        else AttemptOutcome.httpFail)).attemptsMade = 1 + 1 ∧
    (download_file (fun i => if i = 0 then AttemptOutcome.connFailMid
        else AttemptOutcome.httpFail)).result = DownloadResult.errHttp :=
  (download_retry_policy (fun i => if i = 0 then AttemptOutcome.connFailMid
      else AttemptOutcome.httpFail)).2.2.2 1 (by decide) (by decide)

lemma runningTotals_head_ge (l : List ℚ) (hl : ∀ c ∈ l, 0 ≤ c) (acc : ℚ) :
    ∀ y ∈ (runningTotals acc l).head?, acc ≤ y := by
  cases l with
  | nil => simp [runningTotals]
  | cons c rest =>
    intro y hy
    simp [runningTotals] at hy
    subst hy
    have := hl c (by simp)
    linarith

lemma runningTotals_chain (l : List ℚ) (hl : ∀ c ∈ l, 0 ≤ c) :
    ∀ acc, List.Chain' (· ≤ ·) (runningTotals acc l) := by
  induction l with
  | nil => intro acc; simp [runningTotals]
  | cons c rest ih =>
    intro acc
    rw [runningTotals, List.chain'_cons']
    refine ⟨?_, ih (fun d hd => hl d (by simp [hd])) (acc + c)⟩
    exact runningTotals_head_ge rest (fun d hd => hl d (by simp [hd])) (acc + c)

lemma runningTotals_mem_bounds (l : List ℚ) (hl : ∀ c ∈ l, 0 ≤ c) :
    ∀ acc, ∀ x ∈ runningTotals acc l, acc ≤ x ∧ x ≤ acc + l.sum := by
  induction l with
  | nil => intro acc x hx; simp [runningTotals] at hx
  | cons c rest ih =>
    intro acc x hx
    have hc := hl c (by simp)
    have hrest : ∀ d ∈ rest, 0 ≤ d := fun d hd => hl d (by simp [hd])
    have hsum : 0 ≤ rest.sum := List.sum_nonneg hrest
    rw [runningTotals] at hx
    rcases List.mem_cons.mp hx with h | h
    · subst h
      constructor
      · linarith
      · simp only [List.sum_cons]
        linarith
    · have := ih hrest (acc + c) x h
      constructor
      · linarith [this.1]
      · simp only [List.sum_cons]
        linarith [this.2]

lemma runningTotals_getLast (l : List ℚ) :
    ∀ acc, l ≠ [] → (runningTotals acc l).getLast? = some (acc + l.sum) := by
  induction l with
  | nil => intro acc h; exact absurd rfl h
  | cons c rest ih =>
    intro acc _
    cases rest with
    | nil => simp [runningTotals]
    | cons d t =>
      rw [runningTotals]
      have htail : runningTotals (acc + c) (d :: t) = (acc + c + d) :: runningTotals (acc + c + d) t := by
        rw [runningTotals]
      rw [htail, List.getLast?_cons_cons, ← htail, ih (acc + c) (by simp)]
      simp only [List.sum_cons]
      ring_nf

/-- Claim C6: across a successful run with declared size `total`
matching the bytes actually delivered (positive chunks summing to
`total`) and a non-empty archive, the reported overall-progress
sequence starts at 0, ends at 100, is monotonically non-decreasing,
and never exceeds 100; the download-stage values lie in 0..33, the
extraction-stage values in 33..66, registration then reports 100, and
normalization reports nothing. -/
theorem overall_progress_spec (total : ℚ) (chunks : List ℚ) (totalFiles : Nat)
    (htotal : 0 < total) (hchunks : ∀ c ∈ chunks, 0 < c)
    (hsum : chunks.sum = total) (hfiles : 0 < totalFiles) :
    List.Chain' (· ≤ ·) (overall_progress_values total chunks totalFiles) ∧
    (overall_progress_values total chunks totalFiles).head? = some 0 ∧
    (overall_progress_values total chunks totalFiles).getLast? = some 100 ∧
    (∀ x ∈ overall_progress_values total chunks totalFiles, 0 ≤ x ∧ x ≤ 100) ∧
    (∀ x ∈ download_progress_values total chunks, 0 ≤ x ∧ x ≤ 33) ∧
    (∀ x ∈ extract_progress_values totalFiles, 33 ≤ x ∧ x ≤ 66) := by
  have hchunks0 : ∀ c ∈ chunks, 0 ≤ c := fun c hc => le_of_lt (hchunks c hc)
  have hne : chunks ≠ [] := by
    intro h
    subst h
    simp at hsum
    rw [← hsum] at htotal
    exact lt_irrefl 0 htotal
  have hdl_bounds : ∀ x ∈ download_progress_values total chunks, 0 ≤ x ∧ x ≤ 33 := by
    intro x hx
    obtain ⟨d, hd, rfl⟩ := List.mem_map.mp hx
    have hb := runningTotals_mem_bounds chunks hchunks0 0 d hd
    constructor
    · exact mul_nonneg (div_nonneg (by linarith [hb.1]) htotal.le) (by norm_num)
    · have hdt : d ≤ total := by rw [← hsum]; linarith [hb.2]
      have h1 : d / total ≤ 1 := (div_le_one htotal).mpr hdt
      calc d / total * 33 ≤ 1 * 33 := by
            exact mul_le_mul_of_nonneg_right h1 (by norm_num)
        _ = 33 := one_mul 33
  have hnf : (0 : ℚ) < (totalFiles : ℚ) := by exact_mod_cast hfiles
  have hex_bounds : ∀ x ∈ extract_progress_values totalFiles, 33 ≤ x ∧ x ≤ 66 := by
    intro x hx
    obtain ⟨i, hi, rfl⟩ := List.mem_map.mp hx
    rw [List.mem_range] at hi
    have hfrac0 : (0 : ℚ) ≤ ((i : ℚ) + 1) / (totalFiles : ℚ) := by positivity
    constructor
    · nlinarith
    · have h1 : ((i : ℚ) + 1) ≤ (totalFiles : ℚ) := by exact_mod_cast hi
      have h2 : ((i : ℚ) + 1) / (totalFiles : ℚ) ≤ 1 := (div_le_one hnf).mpr h1
      nlinarith
  have hdl_chain : List.Chain' (· ≤ ·) (download_progress_values total chunks) := by
    rw [download_progress_values, List.chain'_map]
    refine (runningTotals_chain chunks hchunks0 0).imp ?_
    intro a b hab
    exact mul_le_mul_of_nonneg_right ((div_le_div_iff_of_pos_right htotal).mpr hab) (by norm_num)
  have hex_chain : List.Chain' (· ≤ ·) (extract_progress_values totalFiles) := by
    rw [extract_progress_values, List.chain'_iff_get]
    intro i hlen
    simp only [List.get_eq_getElem, List.getElem_map, List.getElem_range]
    have hstep : ((i : ℚ) + 1) / (totalFiles : ℚ) ≤ ((i : ℚ) + 1 + 1) / (totalFiles : ℚ) :=
      (div_le_div_iff_of_pos_right hnf).mpr (by linarith)
    push_cast
    nlinarith
  have hdl_last : (download_progress_values total chunks).getLast? = some 33 := by
    rw [download_progress_values, List.getLast?_map, runningTotals_getLast chunks 0 hne]
    simp [hsum, div_self (ne_of_gt htotal)]
  have hexne : extract_progress_values totalFiles ≠ [] := by
    rw [extract_progress_values]
    simp only [ne_eq, List.map_eq_nil_iff, List.range_eq_nil]
    omega
  have hex100_chain : List.Chain' (· ≤ ·) (extract_progress_values totalFiles ++ [100]) := by
    rw [List.chain'_append]
    refine ⟨hex_chain, List.chain'_singleton 100, ?_⟩
    intro x hx y hy
    simp at hy
    subst hy
    have hmem : x ∈ extract_progress_values totalFiles := List.mem_of_mem_getLast? hx
    linarith [(hex_bounds x hmem).2]
  have hfull_chain : List.Chain' (· ≤ ·)
      (download_progress_values total chunks ++ (extract_progress_values totalFiles ++ [100])) := by
    rw [List.chain'_append]
    refine ⟨hdl_chain, hex100_chain, ?_⟩
    intro x hx y hy
    rw [hdl_last] at hx
    simp at hx
    subst hx
    obtain ⟨e0, t, hext⟩ := List.exists_cons_of_ne_nil hexne
    rw [hext] at hy
    simp at hy
    subst hy
    have : e0 ∈ extract_progress_values totalFiles := by rw [hext]; simp
    linarith [(hex_bounds e0 this).1]
  have hchain : List.Chain' (· ≤ ·) (overall_progress_values total chunks totalFiles) := by
    rw [overall_progress_values, List.chain'_cons']
    refine ⟨?_, hfull_chain⟩
    intro y hy
    have hmem := List.mem_of_mem_head? hy
    rcases List.mem_append.mp hmem with h | h
    · exact (hdl_bounds y h).1
    · rcases List.mem_append.mp h with h | h
      · linarith [(hex_bounds y h).1]
      · simp at h
        subst h
        norm_num
  refine ⟨hchain, rfl, ?_, ?_, hdl_bounds, hex_bounds⟩
  · have hassoc : overall_progress_values total chunks totalFiles =
        (0 :: (download_progress_values total chunks ++ extract_progress_values totalFiles))
          ++ [100] := by
      rw [overall_progress_values]
      simp [List.append_assoc]
    rw [hassoc, List.getLast?_concat]
  · intro x hx
    rw [overall_progress_values] at hx
    rcases List.mem_cons.mp hx with h | h
    · subst h
      norm_num
    · rcases List.mem_append.mp h with h | h
      · have := hdl_bounds x h
        exact ⟨this.1, by linarith [this.2]⟩
      · rcases List.mem_append.mp h with h | h
        · have := hex_bounds x h
          exact ⟨by linarith [this.1], by linarith [this.2]⟩
        · simp at h
          subst h
          norm_num

/-- Witness for overall_progress_spec: declared size 2, two chunks of
one byte each, a 2-entry archive. -/
theorem overall_progress_spec_witness :
    List.Chain' (· ≤ ·) (overall_progress_values 2 [1, 1] 2) ∧
    (overall_progress_values 2 [1, 1] 2).head? = some 0 ∧
    (overall_progress_values 2 [1, 1] 2).getLast? = some 100 := by
  have h := overall_progress_spec 2 [1, 1] 2 (by norm_num)
    (by intro c hc; rcases List.mem_cons.mp hc with h | h
        · subst h; norm_num
        · simp at h; subst h; norm_num)
    (by norm_num) (by norm_num)
  exact ⟨h.1, h.2.1, h.2.2.1⟩

end Fastenv
